import Mathlib

set_option maxHeartbeats 1000000

/-!
Verification of the mcp-logic core: the Prover9 input-file synthesizer
(`LogicEngine._create_input_file`), the prover-output classifier
(`LogicEngine._run_prover`), and the legacy input-file parser
(`Prover9FileParser.parse_content`), embedded shallowly over `List Char`.

Python strings become `String`/`List Char`; Python's substring test (`in`),
`str.split(sep)` indexing, `str.strip()`, `str.endswith`, and the two
`re` patterns used by the parser are embedded by explicit recursive
functions below.  Case-insensitive matching (`re.IGNORECASE`, `str.lower`)
is embedded by an ASCII lower-casing map: every marker string the code
matches case-insensitively is plain ASCII.
-/

namespace McpLogic

/-- The whitespace class of Python's `str.strip` / `re` `\s` (ASCII part). -/
def isSpaceChar (c : Char) : Bool :=
  c == ' ' || c == '\t' || c == '\n' || c == '\r' || c == '\x0b' || c == '\x0c'

/-- ASCII lower-casing, the fragment of Python `str.lower()` relevant to the
ASCII marker strings the source compares case-insensitively. -/
def lowerC (c : Char) : Char :=
  match c with
  | 'A' => 'a' | 'B' => 'b' | 'C' => 'c' | 'D' => 'd' | 'E' => 'e' | 'F' => 'f'
  | 'G' => 'g' | 'H' => 'h' | 'I' => 'i' | 'J' => 'j' | 'K' => 'k' | 'L' => 'l'
  | 'M' => 'm' | 'N' => 'n' | 'O' => 'o' | 'P' => 'p' | 'Q' => 'q' | 'R' => 'r'
  | 'S' => 's' | 'T' => 't' | 'U' => 'u' | 'V' => 'v' | 'W' => 'w' | 'X' => 'x'
  | 'Y' => 'y' | 'Z' => 'z'
  | c => c

/-- Case-insensitive character equality (used for `re.IGNORECASE` matching). -/
def ciEq (a b : Char) : Bool := lowerC a == lowerC b

/-- `matchesAt pat s`: `pat` is literally a leading part of `s` (case-sensitive). -/
def matchesAt : List Char → List Char → Bool
  | [], _ => true
  | _ :: _, [] => false
  | p :: ps, c :: cs => p == c && matchesAt ps cs

/-- Python's substring test `pat in s` (case-sensitive). -/
def hasSub (pat : List Char) : List Char → Bool
  | [] => matchesAt pat []
  | s@(_ :: rest) => matchesAt pat s || hasSub pat rest

/-- Split `s` around the first (case-sensitive) occurrence of `pat`:
`some (before, after)`, or `none` when `pat` does not occur. -/
def splitAtFirst (pat : List Char) : List Char → Option (List Char × List Char)
  | [] => if matchesAt pat [] then some ([], []) else none
  | s@(c :: rest) =>
    if matchesAt pat s then some ([], s.drop pat.length)
    else (splitAtFirst pat rest).map (fun p => (c :: p.1, p.2))

/-- `matchesAt`, case-insensitively (`re.IGNORECASE`). -/
def matchesAtCI : List Char → List Char → Bool
  | [], _ => true
  | _ :: _, [] => false
  | p :: ps, c :: cs => ciEq p c && matchesAtCI ps cs

/-- Case-insensitive substring occurrence. -/
def hasMatchCI (pat : List Char) : List Char → Bool
  | [] => matchesAtCI pat []
  | s@(_ :: rest) => matchesAtCI pat s || hasMatchCI pat rest

/-- Split around the first case-insensitive occurrence of `pat`. -/
def splitAtFirstCI (pat : List Char) : List Char → Option (List Char × List Char)
  | [] => if matchesAtCI pat [] then some ([], []) else none
  | s@(c :: rest) =>
    if matchesAtCI pat s then some ([], s.drop pat.length)
    else (splitAtFirstCI pat rest).map (fun p => (c :: p.1, p.2))

/-- Python's `str.strip()` on a character list. -/
def stripList (s : List Char) : List Char :=
  ((s.dropWhile isSpaceChar).reverse.dropWhile isSpaceChar).reverse

/-- The part of `s` before the first occurrence of `pat`, or all of `s` when
`pat` does not occur: the `[0]` element of Python's `s.split(pat)`, and the
chunk between consecutive occurrences when applied to a tail. -/
def takeBeforeOr (pat s : List Char) : List Char :=
  match splitAtFirst pat s with
  | some p => p.1
  | none => s

/-! ### The output classifier of `LogicEngine._run_prover` -/

/-- The structured result dictionaries `_run_prover` can return.  The five
dict shapes in the source are distinguished structurally:
`{"result": "proved", ...}`, `{"result": "unprovable", ...}`,
`{"result": "error", "reason": "Syntax error", "error": stderr}`,
`{"result": "error", "reason": "Unexpected output", ...}`,
`{"result": "timeout", ...}` and the generic
`{"result": "error", "reason": str(e)}` from the `except Exception` clause. -/
inductive ProofResult where
  | proved (proof : String) (completeOutput : String)
  | unprovable (reason : String) (completeOutput : String)
  | syntaxError (stderr : String)
  | unexpectedOutput (stdout : String) (stderr : String)
  | timeout (seconds : Nat)
  | genericError (reason : String)
deriving DecidableEq

/-- How one `subprocess.run` invocation ended, as seen by `_run_prover`:
it completed with captured streams, it raised `TimeoutExpired`, or launching
or I/O raised some other exception with message `msg`. -/
inductive RunStatus where
  | completed (stdout : String) (stderr : String)
  | timedOut (seconds : Nat)
  | failed (msg : String)
deriving DecidableEq

def tpMarker : List Char := "THEOREM PROVED".data
def sfMarker : List Char := "SEARCH FAILED".data
def feMarker : List Char := "Fatal error".data
def pfMarker : List Char := "PROOF =".data
def eqMarker : List Char := "====".data

/-- `result.stdout.split("PROOF =")[1].split("====")[0].strip()`.
`split("PROOF =")[1]` is the chunk between the first and second occurrence
of `"PROOF ="` (to the end when there is no second); indexing `[1]` raises
`IndexError` when `"PROOF ="` does not occur at all — modelled by `none`. -/
def extractProof (stdout : String) : Option String :=
  match splitAtFirst pfMarker stdout.data with
  | none => none
  | some (_, tail) =>
    some (String.mk (stripList (takeBeforeOr eqMarker (takeBeforeOr pfMarker tail))))

/-- The classification performed by `_run_prover`: the `if/elif/else` chain
over the captured streams for a completed run, the `except TimeoutExpired`
clause for a timed-out run, and the `except Exception` clause both for a
launch failure and for the `IndexError` raised by `split("PROOF =")[1]`
when `"THEOREM PROVED"` occurs without `"PROOF ="` (CPython's message for
that error is `"list index out of range"`). -/
def classifyRun : RunStatus → ProofResult
  | .timedOut secs => .timeout secs
  | .failed msg => .genericError msg
  | .completed out err =>
    if hasSub tpMarker out.data then
      match extractProof out with
      | some p => .proved p out
      | none => .genericError "list index out of range"
    else if hasSub sfMarker out.data then
      .unprovable "Proof search failed" out
    else if hasSub feMarker err.data then
      .syntaxError err
    else
      .unexpectedOutput out err

/-- Whether a result is the Proved variant. -/
def isProved : ProofResult → Bool
  | .proved _ _ => true
  | _ => false

/-- The proof text as the amended claim words it: the text of stdout after
the first `"PROOF ="` marker, cut at the next `"PROOF ="` if there is one,
then cut at the first `"===="`, and trimmed of surrounding whitespace. -/
def proofTextSpec (stdout : String) : String :=
  match splitAtFirst pfMarker stdout.data with
  | none => ""
  | some (_, tail) =>
    String.mk (stripList (takeBeforeOr eqMarker (takeBeforeOr pfMarker tail)))

/-- The amended claim's decision list, written from its words: a timeout
status short-circuits to Timeout; a launch failure to the generic error;
otherwise, first match wins: stdout containing `"THEOREM PROVED"` gives
Proved when `"PROOF ="` also occurs and otherwise the generic
`"list index out of range"` error from the caught `IndexError`; else
`"SEARCH FAILED"` gives Unprovable; else `"Fatal error"` on stderr gives
SyntaxError; else the Unexpected-output error carrying both raw streams. -/
def classifySpec : RunStatus → ProofResult
  | .timedOut secs => .timeout secs
  | .failed msg => .genericError msg
  | .completed out err =>
    if hasSub tpMarker out.data then
      if hasSub pfMarker out.data then .proved (proofTextSpec out) out
      else .genericError "list index out of range"
    else if hasSub sfMarker out.data then
      .unprovable "Proof search failed" out
    else if hasSub feMarker err.data then
      .syntaxError err
    else
      .unexpectedOutput out err

/-! ### The input-file synthesizer of `LogicEngine._create_input_file` -/

/-- Python's `p.endswith(".")`. -/
def endsWithDot (p : String) : Bool := p.data.getLast? == some '.'

/-- `p if p.endswith(".") else p + "."`. -/
def addDot (p : String) : String := if endsWithDot p then p else p ++ "."

/-- The `content` list built by `_create_input_file` before joining. -/
def synthLines (premises : List String) (goal : String) : List String :=
  ["formulas(assumptions)."] ++ premises.map addDot ++
    ["end_of_list.", "", "formulas(goals).", addDot goal, "end_of_list."]

/-- Python's `"\n".join`. -/
def joinWithNewline : List String → String
  | [] => ""
  | [l] => l
  | l :: ls => l ++ "\n" ++ joinWithNewline ls

/-- The input-file text built by `_create_input_file`:
`"\n".join(content)`. -/
def synthesize (premises : List String) (goal : String) : String :=
  joinWithNewline (synthLines premises goal)

/-! ### The parser of `Prover9FileParser.parse_content` -/

/-- `content.split('\n')` on a character list. -/
def splitNL : List Char → List (List Char)
  | [] => [[]]
  | c :: rest =>
    if c = '\n' then [] :: splitNL rest
    else
      match splitNL rest with
      | [] => [[c]]
      | l :: ls => (c :: l) :: ls

/-- `if line and not line.startswith('%')` (on the already-stripped line). -/
def keepLine (l : List Char) : Bool := !l.isEmpty && l.head? != some '%'

/-- `'\n'.join` on character lists. -/
def joinLines : List (List Char) → List Char
  | [] => []
  | [l] => l
  | l :: ls => l ++ '\n' :: joinLines ls

/-- The comment-stripping preprocessing of `parse_content`: split into lines,
strip each, drop blank lines and `%` comment lines, re-join with newlines. -/
def cleanLines (content : List Char) : List Char :=
  joinLines (((splitNL content).map stripList).filter keepLine)

/-- Python's `re.split(r'\.\s*', s)` as the regex engine's left-to-right
scan: each period starts a match of the pattern, which then greedily
consumes the whitespace run after it; `inWs` says the scanner is inside
that `\s*` part.  The pattern's `\s*` can be empty, so every period cuts. -/
def splitDotWsGo : Bool → List Char → List (List Char)
  | _, [] => [[]]
  | inWs, c :: rest =>
    if inWs && isSpaceChar c then splitDotWsGo true rest
    else if c = '.' then [] :: splitDotWsGo true rest
    else
      match splitDotWsGo false rest with
      | [] => [[c]]
      | frag :: frags => (c :: frag) :: frags

/-- Python's `re.split(r'\.\s*', s)`. -/
def splitDotWs (s : List Char) : List (List Char) := splitDotWsGo false s

/-- `formula.lower().startswith('end')`. -/
def startsWithEndCI (f : List Char) : Bool := matchesAtCI "end".data f

/-- `if formula and not formula.lower().startswith('end')`. -/
def keepFormula (f : List Char) : Bool := !f.isEmpty && !startsWithEndCI f

/-- The per-block formula extraction of `parse_content`: split the block on
`r'\.\s*'`, strip each fragment, keep the non-empty fragments that do not
start (case-insensitively) with `end`. -/
def extractFormulas (block : List Char) : List String :=
  (((splitDotWs block).map stripList).filter keepFormula).map String.mk

def hdrAssumptions : List Char := "formulas(assumptions).".data
def hdrGoals : List Char := "formulas(goals).".data
def eolMarker : List Char := "end_of_list.".data
def eolTok : List Char := "end_of_list".data
def goalsTok : List Char := "formulas(goals)".data

/-- `re.search(header + r'\s*(.*?)\s*end_of_list\.', content, DOTALL|IGNORECASE)`
followed by `.group(1).strip()`: the leftmost match starts at the first
case-insensitive occurrence of the literal header; with `re.DOTALL` the lazy
group then reaches exactly to the first case-insensitive occurrence of
`end_of_list.` after the header (any occurrence would complete a match, and
laziness picks the earliest; the marker starts with a non-whitespace
character, so the greedy `\s*` cannot hide one).  The two `\s*` together
with the source's `.strip()` amount to stripping the between-text. -/
def extractBlock (header : List Char) (content : List Char) : Option (List Char) :=
  match splitAtFirstCI header content with
  | none => none
  | some (_, rest) =>
    match splitAtFirstCI eolMarker rest with
    | none => none
    | some (before, _) => some (stripList before)

/-- `Prover9FileParser.parse_content`: comment-strip, extract the assumptions
block into the ordered premise list (empty when the block is not matched),
extract the goals block and take the first kept formula as the conclusion. -/
def parse_content (content : String) : List String × Option String :=
  let cleaned := cleanLines content.data
  let premises :=
    match extractBlock hdrAssumptions cleaned with
    | none => []
    | some block => extractFormulas block
  let conclusion :=
    match extractBlock hdrGoals cleaned with
    | none => none
    | some block => (extractFormulas block).head?
  (premises, conclusion)

/-- Not the period character. -/
def notDot (c : Char) : Bool := c != '.'

/-- Second formulation of the amended splitting claim, following its words:
each boundary is a period together with the maximal run of whitespace after
it; the text up to the next period is one fragment. -/
def splitBoundary (s : List Char) : List (List Char) :=
  match hr : s.dropWhile notDot with
  | [] => [s.takeWhile notDot]
  | _ :: r => s.takeWhile notDot :: splitBoundary (r.dropWhile isSpaceChar)
termination_by s.length
decreasing_by
  have h1 : (r.dropWhile isSpaceChar).length ≤ r.length :=
    (List.dropWhile_suffix _).sublist.length_le
  have h2 : (s.dropWhile notDot).length ≤ s.length :=
    (List.dropWhile_suffix _).sublist.length_le
  rw [hr] at h2
  simp only [List.length_cons] at h2
  omega

/-! ### Round-trip side conditions -/

/-- The class of formulas for which synthesize-then-parse is the identity:
non-empty, stable under stripping (no leading or trailing whitespace),
free of periods and newlines, not a comment line, not starting
(case-insensitively) with `end`, and containing neither the `end_of_list`
nor the `formulas(goals)` token case-insensitively. -/
def GoodFormula (f : String) : Prop :=
  f.data ≠ [] ∧
  f.data.dropWhile isSpaceChar = f.data ∧
  f.data.reverse.dropWhile isSpaceChar = f.data.reverse ∧
  '.' ∉ f.data ∧
  '\n' ∉ f.data ∧
  f.data.head? ≠ some '%' ∧
  startsWithEndCI f.data = false ∧
  hasMatchCI eolTok f.data = false ∧
  hasMatchCI goalsTok f.data = false

instance (f : String) : Decidable (GoodFormula f) := by
  unfold GoodFormula; infer_instance

/-- The character list of the line a formula becomes in the synthesized
file: the formula text followed by its terminator. -/
def lineData (f : String) : List Char := f.data ++ ['.']

/-! ### The process-lifecycle model of `_run_prover` -/

/-- How the one effectful step of `_run_prover` (the `subprocess.run` call)
can end, as an oracle parameter: it completes with captured streams, raises
`TimeoutExpired`, or raises some other launch/I-O exception. -/
inductive SubprocessOutcome where
  | completes (stdout : String) (stderr : String)
  | timesOut
  | raises (msg : String)

/-- The `try` suite of `_run_prover` together with its two `except` clauses:
every outcome of the subprocess call — including the `IndexError` that
classification can raise, handled inside `classifyRun` — is converted to a
returned `ProofResult`; `Except.error` would model an exception escaping
`_run_prover`, and no branch produces one. -/
def runBody (sub : SubprocessOutcome) (timeoutSecs : Nat) : Except String ProofResult :=
  match sub with
  | .completes out err => .ok (classifyRun (.completed out err))
  | .timesOut => .ok (classifyRun (.timedOut timeoutSecs))
  | .raises msg => .ok (classifyRun (.failed msg))

/-- The `finally` suite: `input_path.unlink()` wrapped in
`try/except (FileNotFoundError, PermissionError, OSError): pass`.  The
oracle `unlinkFails` says whether the deletion raises; the step never
propagates an error, and the returned flag says whether the file is gone. -/
def unlinkStep (unlinkFails : Bool) : Except String Unit × Bool :=
  if unlinkFails then (.ok (), false) else (.ok (), true)

/-- `_run_prover` as a whole: run the body, then the `finally` clean-up on
every exit path; Python's `try/finally` lets the body's outcome stand when
the `finally` suite completes normally (which `unlinkStep` always does),
and would propagate an error raised by the `finally` suite. -/
def run_prover (sub : SubprocessOutcome) (unlinkFails : Bool) (timeoutSecs : Nat) :
    Except String ProofResult × Bool :=
  let body := runBody sub timeoutSecs
  let fin := unlinkStep unlinkFails
  (match fin.1 with
   | .ok _ => body
   | .error e => .error e,
   fin.2)

/-! ## Lemmas about the classifier's string operations -/

theorem splitAtFirst_isSome (pat s : List Char) :
    (splitAtFirst pat s).isSome = hasSub pat s := by
  induction s with
  | nil =>
    by_cases h : matchesAt pat [] = true
    · simp [splitAtFirst, hasSub, h]
    · simp [splitAtFirst, hasSub, h]
  | cons c rest ih =>
    by_cases h : matchesAt pat (c :: rest) = true
    · simp [splitAtFirst, hasSub, h]
    · simp [splitAtFirst, hasSub, h, ih]

theorem splitAtFirst_eq_none (pat s : List Char) (h : hasSub pat s = false) :
    splitAtFirst pat s = none := by
  have h2 := splitAtFirst_isSome pat s
  rw [h] at h2
  simpa using h2

theorem takeBeforeOr_of_no_sub (pat s : List Char) (h : hasSub pat s = false) :
    takeBeforeOr pat s = s := by
  unfold takeBeforeOr
  rw [splitAtFirst_eq_none pat s h]

theorem extractProof_of_split (out : String) (b tail : List Char)
    (h : splitAtFirst pfMarker out.data = some (b, tail)) :
    extractProof out =
      some (String.mk (stripList (takeBeforeOr eqMarker (takeBeforeOr pfMarker tail)))) := by
  unfold extractProof
  rw [h]

theorem extractProof_some_of_hasSub (out : String) (h : hasSub pfMarker out.data = true) :
    extractProof out = some (proofTextSpec out) := by
  unfold extractProof proofTextSpec
  have h2 := splitAtFirst_isSome pfMarker out.data
  rw [h] at h2
  cases h3 : splitAtFirst pfMarker out.data with
  | none => rw [h3] at h2; simp at h2
  | some p => obtain ⟨b, t⟩ := p; rfl

theorem extractProof_none_of_no_sub (out : String) (h : hasSub pfMarker out.data = false) :
    extractProof out = none := by
  unfold extractProof
  rw [splitAtFirst_eq_none _ _ h]

/-! ## Claims about the classifier -/

/-- Claim C1: on the premises `["all x (man(x) -> mortal(x))", "man(socrates)"]`
and goal `"mortal(socrates)"`, the synthesizer produces exactly the canonical
two-block text, byte for byte: one formula per line, a period appended to
each formula, and a blank line between the assumptions and goals blocks. -/
theorem c1_synthesize_exact :
    synthesize ["all x (man(x) -> mortal(x))", "man(socrates)"] "mortal(socrates)" =
      "formulas(assumptions).\nall x (man(x) -> mortal(x)).\nman(socrates).\nend_of_list.\n\nformulas(goals).\nmortal(socrates).\nend_of_list." := by
  decide

/-- Counterexample to claim C2 as stated: a completed run whose stdout
contains `"THEOREM PROVED"` but no `"PROOF ="` marker is classified as the
generic error produced by the caught `IndexError`, not as Proved. -/
theorem c2_counterexample :
    classifyRun (RunStatus.completed "THEOREM PROVED" "") =
      ProofResult.genericError "list index out of range" ∧
    isProved (classifyRun (RunStatus.completed "THEOREM PROVED" "")) = false :=
  ⟨by decide, by decide⟩

/-- Claim C2 (amended): classification of one run follows the fixed
first-match-wins decision order — timeout status short-circuits to Timeout;
a launch failure becomes the generic error; otherwise stdout containing
`"THEOREM PROVED"` yields Proved when `"PROOF ="` also occurs in stdout and
otherwise the generic `"list index out of range"` error from the caught
`IndexError`; else stdout containing `"SEARCH FAILED"` yields Unprovable;
else stderr containing `"Fatal error"` yields SyntaxError; else the
Unexpected-output error carrying both raw streams.  Classification is a
total function, so exactly one variant is returned for every input. -/
theorem c2_classifier_decision_order (st : RunStatus) :
    classifyRun st = classifySpec st := by
  cases st with
  | timedOut n => rfl
  | failed m => rfl
  | completed out err =>
    by_cases h1 : hasSub tpMarker out.data = true
    · by_cases h2 : hasSub pfMarker out.data = true
      · simp [classifyRun, classifySpec, h1, h2, extractProof_some_of_hasSub out h2]
      · have h2f : hasSub pfMarker out.data = false := by
          simpa using h2
        simp [classifyRun, classifySpec, h1, h2f, extractProof_none_of_no_sub out h2f]
    · have h1f : hasSub tpMarker out.data = false := by
        simpa using h1
      simp [classifyRun, classifySpec, h1f]

theorem c2_witness :
    classifyRun (RunStatus.completed "a SEARCH FAILED b" "") =
      classifySpec (RunStatus.completed "a SEARCH FAILED b" "") :=
  c2_classifier_decision_order (RunStatus.completed "a SEARCH FAILED b" "")

/-- Counterexample to claim C3 as stated: not every non-timed-out stdout
containing `"THEOREM PROVED"` classifies as Proved — without a `"PROOF ="`
marker the indexing raises and the run is classified as a generic error. -/
theorem c3_counterexample :
    hasSub tpMarker "THEOREM PROVED, sans marker".data = true ∧
    isProved (classifyRun (RunStatus.completed "THEOREM PROVED, sans marker" "")) = false :=
  ⟨by decide, by decide⟩

/-- Claim C3 (amended): for a completed run whose stdout contains
`"THEOREM PROVED"` and exactly one occurrence of `"PROOF ="` (splitting at
the first occurrence leaves a tail with no further occurrence), the result
is Proved and the proof field is exactly the text after that marker, cut at
the first `"===="` and trimmed of surrounding whitespace. -/
theorem c3_proved_proof_extraction (out err : String) (b tail : List Char)
    (h1 : hasSub tpMarker out.data = true)
    (h2 : splitAtFirst pfMarker out.data = some (b, tail))
    (h3 : hasSub pfMarker tail = false) :
    classifyRun (RunStatus.completed out err) =
      ProofResult.proved (String.mk (stripList (takeBeforeOr eqMarker tail))) out := by
  have he : extractProof out =
      some (String.mk (stripList (takeBeforeOr eqMarker tail))) := by
    rw [extractProof_of_split out b tail h2, takeBeforeOr_of_no_sub _ _ h3]
  simp [classifyRun, h1, he]

theorem c3_witness :
    classifyRun (RunStatus.completed "THEOREM PROVED\nPROOF = p(a) ====\n" "") =
      ProofResult.proved (String.mk (stripList (takeBeforeOr eqMarker " p(a) ====\n".data)))
        "THEOREM PROVED\nPROOF = p(a) ====\n" ∧
    String.mk (stripList (takeBeforeOr eqMarker " p(a) ====\n".data)) = "p(a)" :=
  ⟨c3_proved_proof_extraction "THEOREM PROVED\nPROOF = p(a) ====\n" ""
      "THEOREM PROVED\n".data " p(a) ====\n".data (by decide) (by decide) (by decide),
    by decide⟩

/-! ## Claims about the parser's block handling -/

theorem parse_content_fst (content : String) :
    (parse_content content).1 =
      match extractBlock hdrAssumptions (cleanLines content.data) with
      | none => []
      | some block => extractFormulas block := rfl

theorem parse_content_snd (content : String) :
    (parse_content content).2 =
      match extractBlock hdrGoals (cleanLines content.data) with
      | none => none
      | some block => (extractFormulas block).head? := rfl

/-- Counterexample to claim C4 as stated: when the assumptions block has no
end-of-list marker of its own but a goals block later in the content does,
the DOTALL search runs through to that marker and the premise sequence is
not empty — it even swallows the goals header as formula text. -/
theorem c4_counterexample :
    (parse_content "formulas(assumptions).\nman(socrates)\nformulas(goals).\nmortal(socrates).\nend_of_list.").1 =
      ["man(socrates)\nformulas(goals)", "mortal(socrates)"] ∧
    (parse_content "formulas(assumptions).\nman(socrates)\nformulas(goals).\nmortal(socrates).\nend_of_list.").1 ≠ [] :=
  ⟨by decide, by decide⟩

/-- Claim C4 (amended): when no end-of-list marker occurs (case-insensitively)
after the assumptions header in the comment-stripped content — so the block
search fails — the parse returns an empty premise sequence; the parse is a
total function, so nothing is raised. -/
theorem c4_unterminated_block_empty (content : String)
    (h : extractBlock hdrAssumptions (cleanLines content.data) = none) :
    (parse_content content).1 = [] := by
  rw [parse_content_fst, h]

theorem c4_witness :
    extractBlock hdrAssumptions (cleanLines "formulas(assumptions).\nq(a)".data) = none ∧
    (parse_content "formulas(assumptions).\nq(a)").1 = [] :=
  ⟨by decide, c4_unterminated_block_empty "formulas(assumptions).\nq(a)" (by decide)⟩

/-! ## Claim C10: the end-prefix filter -/

theorem startsWithEndCI_of_mem_extractFormulas {block : List Char} {p : String}
    (hp : p ∈ extractFormulas block) : startsWithEndCI p.data = false := by
  unfold extractFormulas at hp
  simp only [List.mem_map] at hp
  obtain ⟨frag, hfrag, rfl⟩ := hp
  have hk := List.of_mem_filter hfrag
  unfold keepFormula at hk
  simp only [Bool.and_eq_true, Bool.not_eq_true'] at hk
  exact hk.2

/-- Claim C10: no premise and no conclusion returned by the parse begins,
in any letter case, with the letters `end`: every fragment whose trimmed
text starts with `end` — legitimate formulas included — is discarded from
the premise sequence and skipped when selecting the goal. -/
theorem c10_end_fragments_discarded (content : String) :
    (∀ p ∈ (parse_content content).1, startsWithEndCI p.data = false) ∧
    (∀ c, (parse_content content).2 = some c → startsWithEndCI c.data = false) := by
  constructor
  · intro p hp
    rw [parse_content_fst] at hp
    cases h : extractBlock hdrAssumptions (cleanLines content.data) with
    | none => rw [h] at hp; simp at hp
    | some block =>
      rw [h] at hp
      exact startsWithEndCI_of_mem_extractFormulas hp
  · intro c hc
    rw [parse_content_snd] at hc
    cases h : extractBlock hdrGoals (cleanLines content.data) with
    | none => rw [h] at hc; simp at hc
    | some block =>
      rw [h] at hc
      exact startsWithEndCI_of_mem_extractFormulas (List.mem_of_mem_head? hc)

theorem c10_witness :
    "p(a)" ∈ (parse_content "formulas(assumptions).\np(a).\nendures(b).\nend_of_list.").1 ∧
    startsWithEndCI "p(a)".data = false :=
  ⟨by decide,
    (c10_end_fragments_discarded "formulas(assumptions).\np(a).\nendures(b).\nend_of_list.").1
      "p(a)" (by decide)⟩

/-! ## Claim C9: the process-lifecycle model -/

/-- Claim C9: on every exit path of a prover run — successful
classification, timeout, or launch/I-O failure — the clean-up step runs and
no exception propagates past the runner boundary (the returned value is
always `Except.ok`); an error raised by the deletion itself is swallowed
and leaves the returned result unchanged; when the deletion does not fail
the input file is gone. -/
theorem c9_cleanup_every_path (sub : SubprocessOutcome) (unlinkFails : Bool) (t : Nat) :
    (∃ r, (run_prover sub unlinkFails t).1 = Except.ok r) ∧
    (run_prover sub true t).1 = (run_prover sub false t).1 ∧
    (run_prover sub unlinkFails t).2 = !unlinkFails := by
  refine ⟨?_, ?_, ?_⟩
  · cases sub <;> cases unlinkFails <;> exact ⟨_, rfl⟩
  · cases sub <;> rfl
  · cases unlinkFails <;> rfl

theorem c9_witness :
    (run_prover SubprocessOutcome.timesOut true 60).2 = !true :=
  (c9_cleanup_every_path SubprocessOutcome.timesOut true 60).2.2

/-! ## Character-level lemmas for case-insensitive matching -/

theorem lowerC_eq_dot {c : Char} : lowerC c = '.' ↔ c = '.' := by
  constructor
  · intro h
    unfold lowerC at h
    split at h <;> first | exact h | exact absurd h (by decide)
  · intro h
    subst h
    rfl

theorem lowerC_ne_newline {c : Char} (h : lowerC c ≠ '\n') : c ≠ '\n' := by
  intro hc
  subst hc
  exact h rfl

theorem ciEq_refl (c : Char) : ciEq c c = true := by
  simp [ciEq]

theorem matchesAtCI_append_self (pat t : List Char) :
    matchesAtCI pat (pat ++ t) = true := by
  induction pat with
  | nil => rfl
  | cons p ps ih => simp [matchesAtCI, ciEq_refl, ih]

theorem matchesAtCI_nil_false {p : Char} {ps : List Char} :
    matchesAtCI (p :: ps) [] = false := rfl

theorem splitAtFirstCI_cons_pos (pat : List Char) (c : Char) (rest : List Char)
    (h : matchesAtCI pat (c :: rest) = true) :
    splitAtFirstCI pat (c :: rest) = some ([], (c :: rest).drop pat.length) := by
  simp [splitAtFirstCI, h]

theorem splitAtFirstCI_cons_neg (pat : List Char) (c : Char) (rest : List Char)
    (h : matchesAtCI pat (c :: rest) = false) :
    splitAtFirstCI pat (c :: rest) =
      (splitAtFirstCI pat rest).map (fun p => (c :: p.1, p.2)) := by
  simp [splitAtFirstCI, h]

/-- A pattern free of newline (after lower-casing) cannot match across the
newline that ends `x`: matching into `x ++ '\n' :: y` is matching into `x`. -/
theorem matchesAtCI_append_newline (pat x y : List Char)
    (hpat : '\n' ∉ pat.map lowerC) :
    matchesAtCI pat (x ++ '\n' :: y) = matchesAtCI pat x := by
  induction pat generalizing x with
  | nil => rfl
  | cons p ps ih =>
    cases x with
    | nil =>
      have hp : lowerC p ≠ '\n' := by
        intro h
        exact hpat (by simp [h])
      have hpe : ciEq p '\n' = false := by
        simp only [ciEq, beq_eq_false_iff_ne, ne_eq]
        simpa using hp
      simp [matchesAtCI, hpe]
    | cons c x' =>
      have hps : '\n' ∉ ps.map lowerC := fun h => hpat (by simp [h])
      simp only [List.cons_append, matchesAtCI, List.append_eq, ih x' hps]

/-- Occurrence search distributes over a newline join for newline-free
patterns. -/
theorem hasMatchCI_append_newline (pat x y : List Char)
    (hpat : '\n' ∉ pat.map lowerC) :
    hasMatchCI pat (x ++ '\n' :: y) = (hasMatchCI pat x || hasMatchCI pat y) := by
  induction x with
  | nil =>
    cases pat with
    | nil => simp [hasMatchCI, matchesAtCI]
    | cons p ps =>
      have hm := matchesAtCI_append_newline (p :: ps) [] y hpat
      simp only [List.nil_append] at hm ⊢
      simp [hasMatchCI, hm, matchesAtCI_nil_false]
  | cons c x' ih =>
    have hm := matchesAtCI_append_newline pat (c :: x') y hpat
    simp only [List.cons_append] at hm ⊢
    simp [hasMatchCI, hm, ih, Bool.or_assoc]

theorem splitAtFirstCI_self (pat t : List Char) :
    splitAtFirstCI pat (pat ++ t) = some ([], t) := by
  cases pat with
  | nil =>
    cases t with
    | nil => rfl
    | cons c r => simp [splitAtFirstCI, matchesAtCI]
  | cons p ps =>
    have hm : matchesAtCI (p :: ps) (p :: (ps ++ t)) = true := by
      have := matchesAtCI_append_self (p :: ps) t
      simpa using this
    have e1 : (p :: ps) ++ t = p :: (ps ++ t) := rfl
    rw [e1, splitAtFirstCI_cons_pos _ _ _ hm]
    have hd : (p :: (ps ++ t)).drop (p :: ps).length = t := by
      have := List.drop_left (p :: ps) t
      simpa using this
    rw [hd]

/-- Searching past a newline-terminated region containing no occurrence. -/
theorem splitAtFirstCI_append_newline (pat x y : List Char)
    (hpat0 : pat ≠ []) (hpat : '\n' ∉ pat.map lowerC)
    (hx : hasMatchCI pat x = false) :
    splitAtFirstCI pat (x ++ '\n' :: y) =
      (splitAtFirstCI pat y).map (fun p => ((x ++ ['\n']) ++ p.1, p.2)) := by
  induction x with
  | nil =>
    obtain ⟨p, ps, rfl⟩ : ∃ p ps, pat = p :: ps := by
      cases pat with
      | nil => exact absurd rfl hpat0
      | cons p ps => exact ⟨p, ps, rfl⟩
    have hm : matchesAtCI (p :: ps) ('\n' :: y) = false := by
      have := matchesAtCI_append_newline (p :: ps) [] y hpat
      simpa [matchesAtCI_nil_false] using this
    rw [show ([] : List Char) ++ '\n' :: y = '\n' :: y from rfl,
      splitAtFirstCI_cons_neg _ _ _ hm]
    rfl
  | cons c x' ih =>
    have hx2 : matchesAtCI pat (c :: x') = false ∧ hasMatchCI pat x' = false := by
      unfold hasMatchCI at hx
      simpa only [Bool.or_eq_false_iff] using hx
    have hm : matchesAtCI pat (c :: (x' ++ '\n' :: y)) = false := by
      have := matchesAtCI_append_newline pat (c :: x') y hpat
      simp only [List.cons_append] at this
      rw [this]
      exact hx2.1
    rw [show (c :: x') ++ '\n' :: y = c :: (x' ++ '\n' :: y) from rfl,
      splitAtFirstCI_cons_neg _ _ _ hm, ih hx2.2]
    cases splitAtFirstCI pat y with
    | none => rfl
    | some p => simp

theorem nat_succ_beq (a b : Nat) : (a + 1 == b + 1) = (a == b) := by
  cases h : (a == b)
  · simp only [beq_eq_false_iff_ne, ne_eq] at h ⊢
    omega
  · simp only [beq_iff_eq] at h ⊢
    omega

/-- Matching the dot-terminated pattern against a dot-terminated line
reduces to matching the dot-free token against the dot-free line text. -/
theorem matchesAtCI_dotline (tok g : List Char)
    (htok : '.' ∉ tok.map lowerC) (hg : '.' ∉ g) :
    matchesAtCI (tok ++ ['.']) (g ++ ['.']) =
      (matchesAtCI tok g && g.length == tok.length) := by
  induction tok generalizing g with
  | nil =>
    cases g with
    | nil => rfl
    | cons c g' =>
      have hc : c ≠ '.' := fun h => hg (by simp [h])
      have hce : ciEq '.' c = false := by
        simp only [ciEq, beq_eq_false_iff_ne, ne_eq]
        intro h
        exact hc (lowerC_eq_dot.mp h.symm)
      simp [matchesAtCI, hce]
  | cons t tok' ih =>
    cases g with
    | nil =>
      have ht : lowerC t ≠ '.' := by
        intro h
        exact htok (by simp [h])
      have hte : ciEq t '.' = false := by
        simp only [ciEq, beq_eq_false_iff_ne, ne_eq]
        simpa using ht
      simp [matchesAtCI, hte]
    | cons c g' =>
      have htok' : '.' ∉ tok'.map lowerC := fun h => htok (by simp [h])
      have hg' : '.' ∉ g' := fun h => hg (by simp [h])
      simp only [List.cons_append, matchesAtCI, List.append_eq, List.length_cons, nat_succ_beq]
      rw [ih g' htok' hg']
      cases hciEq : ciEq t c
      · simp
      · simp [Bool.and_assoc]

/-- No occurrence of the dot-terminated pattern in a dot-terminated line
whose text is dot-free and free of the token. -/
theorem hasMatchCI_dotline (tok f : List Char)
    (htok : '.' ∉ tok.map lowerC) (hf : '.' ∉ f)
    (hocc : hasMatchCI tok f = false) :
    hasMatchCI (tok ++ ['.']) (f ++ ['.']) = false := by
  induction f with
  | nil =>
    obtain ⟨t, tok', rfl⟩ : ∃ t tok', tok = t :: tok' := by
      cases tok with
      | nil => simp [hasMatchCI, matchesAtCI] at hocc
      | cons t tok' => exact ⟨t, tok', rfl⟩
    have h1 : matchesAtCI ((t :: tok') ++ ['.']) ([] ++ ['.']) = false := by
      rw [matchesAtCI_dotline _ _ htok (by simp)]
      simp [matchesAtCI]
    simp only [List.cons_append, List.nil_append] at h1 ⊢
    simp [hasMatchCI, h1, matchesAtCI_nil_false]
  | cons c f' ih =>
    unfold hasMatchCI at hocc
    simp only [Bool.or_eq_false_iff] at hocc
    have hf' : '.' ∉ f' := fun h => hf (by simp [h])
    have h1 : matchesAtCI (tok ++ ['.']) ((c :: f') ++ ['.']) = false := by
      rw [matchesAtCI_dotline _ _ htok hf]
      simp [hocc.1]
    simp only [List.cons_append] at h1 ⊢
    simp [hasMatchCI, h1, ih hf' hocc.2]

/-! ## Lemmas about stripping, line splitting and fragment splitting -/

theorem dropWhile_of_head_neg {p : Char → Bool} {l : List Char} {d : Char}
    (hh : l.head? = some d) (hd : p d = false) : l.dropWhile p = l := by
  cases l with
  | nil => rfl
  | cons a m =>
    have ha : a = d := by simpa using hh
    subst ha
    simp [List.dropWhile_cons, hd]

theorem head_neg_of_dropWhile_stable {p : Char → Bool} {a : Char} {m : List Char}
    (h : (a :: m).dropWhile p = a :: m) : p a = false := by
  by_cases hp : p a = true
  · rw [List.dropWhile_cons, if_pos hp] at h
    have hlen : (m.dropWhile p).length ≤ m.length :=
      (List.dropWhile_suffix _).sublist.length_le
    rw [h] at hlen
    simp only [List.length_cons] at hlen
    exact absurd hlen (by omega)
  · simpa using hp

theorem stripList_eq_self {s : List Char}
    (h1 : s.dropWhile isSpaceChar = s)
    (h2 : s.reverse.dropWhile isSpaceChar = s.reverse) :
    stripList s = s := by
  unfold stripList
  rw [h1, h2, List.reverse_reverse]

theorem good_strip {f : String} (hf : GoodFormula f) : stripList f.data = f.data :=
  stripList_eq_self hf.2.1 hf.2.2.1

theorem good_head {f : String} (hf : GoodFormula f) :
    ∃ a m, f.data = a :: m ∧ isSpaceChar a = false ∧ a ≠ '%' := by
  obtain ⟨hne, hdrop, _, _, _, hpct, _⟩ := hf
  cases he : f.data with
  | nil => exact absurd he hne
  | cons a m =>
    rw [he] at hdrop hpct
    refine ⟨a, m, rfl, head_neg_of_dropWhile_stable hdrop, ?_⟩
    intro ha
    exact hpct (by rw [ha]; rfl)

theorem strData_append (a b : String) : (a ++ b).data = a.data ++ b.data := rfl

theorem good_addDot {f : String} (hf : GoodFormula f) :
    (addDot f).data = f.data ++ ['.'] := by
  have hdot : '.' ∉ f.data := hf.2.2.2.1
  have hend : endsWithDot f = false := by
    unfold endsWithDot
    simp only [beq_eq_false_iff_ne, ne_eq]
    intro h
    have hmem : '.' ∈ f.data.reverse :=
      List.mem_of_mem_head? (by rw [List.head?_reverse]; exact h)
    exact hdot (by simpa using hmem)
  unfold addDot
  rw [hend]
  rfl

theorem lineData_strip {f : String} (hf : GoodFormula f) :
    stripList (f.data ++ ['.']) = f.data ++ ['.'] := by
  obtain ⟨a, m, he, ha, _⟩ := good_head hf
  apply stripList_eq_self
  · rw [he, show (a :: m) ++ ['.'] = a :: (m ++ ['.']) from rfl]
    simp [List.dropWhile_cons, ha]
  · rw [show (f.data ++ ['.']).reverse = '.' :: f.data.reverse from by simp]
    simp [List.dropWhile_cons, show isSpaceChar '.' = false from rfl]

theorem good_keepLine {f : String} (hf : GoodFormula f) :
    keepLine (f.data ++ ['.']) = true := by
  obtain ⟨a, m, he, _, hpc⟩ := good_head hf
  rw [he, show (a :: m) ++ ['.'] = a :: (m ++ ['.']) from rfl]
  simp [keepLine, hpc]

theorem good_keepFormula {f : String} (hf : GoodFormula f) :
    keepFormula f.data = true := by
  have hne : f.data ≠ [] := hf.1
  have hswe : startsWithEndCI f.data = false := hf.2.2.2.2.2.2.1
  unfold keepFormula
  rw [hswe]
  cases he : f.data with
  | nil => exact absurd he hne
  | cons a m => simp [List.isEmpty]

/-! ### Python `content.split('\n')` over joins -/

theorem splitNL_no_newline {l : List Char} (h : '\n' ∉ l) : splitNL l = [l] := by
  induction l with
  | nil => rfl
  | cons c r ih =>
    have hc : c ≠ '\n' := fun hh => h (by simp [hh])
    have hr : '\n' ∉ r := fun hh => h (by simp [hh])
    unfold splitNL
    rw [if_neg hc, ih hr]

theorem splitNL_append_newline {l : List Char} (r : List Char) (h : '\n' ∉ l) :
    splitNL (l ++ '\n' :: r) = l :: splitNL r := by
  induction l with
  | nil =>
    show splitNL ('\n' :: r) = [] :: splitNL r
    simp [splitNL]
  | cons c l' ih =>
    have hc : c ≠ '\n' := fun hh => h (by simp [hh])
    have hl : '\n' ∉ l' := fun hh => h (by simp [hh])
    rw [show (c :: l') ++ '\n' :: r = c :: (l' ++ '\n' :: r) from rfl]
    simp only [splitNL]
    rw [if_neg hc, ih hl]

theorem joinLines_cons {l : List Char} {ls : List (List Char)} (h : ls ≠ []) :
    joinLines (l :: ls) = l ++ '\n' :: joinLines ls := by
  cases ls with
  | nil => exact absurd rfl h
  | cons a t => rfl

theorem joinLines_append {L1 L2 : List (List Char)} (h1 : L1 ≠ []) (h2 : L2 ≠ []) :
    joinLines (L1 ++ L2) = joinLines L1 ++ '\n' :: joinLines L2 := by
  induction L1 with
  | nil => exact absurd rfl h1
  | cons l t ih =>
    cases t with
    | nil =>
      rw [show ([l] : List (List Char)) ++ L2 = l :: L2 from rfl,
        joinLines_cons h2]
      rfl
    | cons b t' =>
      have e1 : (l :: b :: t') ++ L2 = l :: ((b :: t') ++ L2) := rfl
      have hne : (b :: t') ++ L2 ≠ [] := by simp
      have hbt : (b :: t') ≠ ([] : List (List Char)) := by simp
      rw [e1, joinLines_cons hne, ih hbt, joinLines_cons hbt]
      simp

theorem splitNL_joinLines {L : List (List Char)} (h0 : L ≠ [])
    (h : ∀ l ∈ L, '\n' ∉ l) : splitNL (joinLines L) = L := by
  induction L with
  | nil => exact absurd rfl h0
  | cons l ls ih =>
    cases ls with
    | nil => exact splitNL_no_newline (h l (by simp))
    | cons b t =>
      rw [joinLines_cons (by simp), splitNL_append_newline _ (h l (by simp)),
        ih (by simp) (fun x hx => h x (by simp [hx]))]

theorem joinWithNewline_data (ls : List String) :
    (joinWithNewline ls).data = joinLines (ls.map String.data) := by
  induction ls with
  | nil => rfl
  | cons l ls ih =>
    cases ls with
    | nil => rfl
    | cons b t =>
      show (l ++ "\n" ++ joinWithNewline (b :: t)).data = _
      rw [strData_append, strData_append, ih,
        show ("\n" : String).data = ['\n'] from rfl]
      simp only [List.map_cons]
      rw [joinLines_cons (show (b.data :: List.map String.data t) ≠ [] by simp)]
      simp

/-! ### Python `re.split(r'\.\s*', ...)` over line joins -/

theorem splitDotWsGo_false_append (f r : List Char) (hf : '.' ∉ f) :
    splitDotWsGo false (f ++ '.' :: r) = f :: splitDotWsGo true r := by
  induction f with
  | nil =>
    show splitDotWsGo false ('.' :: r) = [] :: splitDotWsGo true r
    simp [splitDotWsGo]
  | cons c f' ih =>
    have hc : c ≠ '.' := fun h => hf (by simp [h])
    have hf' : '.' ∉ f' := fun h => hf (by simp [h])
    show splitDotWsGo false (c :: (f' ++ '.' :: r)) = (c :: f') :: splitDotWsGo true r
    simp only [splitDotWsGo]
    rw [if_neg (by simp), if_neg hc, ih hf']

theorem splitDotWsGo_true_eq (r : List Char) :
    splitDotWsGo true r = splitDotWsGo false (r.dropWhile isSpaceChar) := by
  induction r with
  | nil => rfl
  | cons c r' ih =>
    by_cases hws : isSpaceChar c = true
    · rw [List.dropWhile_cons, if_pos hws, ← ih]
      simp [splitDotWsGo, hws]
    · have hws' : isSpaceChar c = false := by simpa using hws
      rw [List.dropWhile_cons, if_neg (by simp [hws'])]
      by_cases hc : c = '.'
      · subst hc
        simp [splitDotWsGo, hws']
      · simp [splitDotWsGo, hws', hc]

theorem splitDotWs_append (f r : List Char) (hf : '.' ∉ f) :
    splitDotWs (f ++ '.' :: r) = f :: splitDotWs (r.dropWhile isSpaceChar) := by
  unfold splitDotWs
  rw [splitDotWsGo_false_append f r hf, splitDotWsGo_true_eq]

theorem splitDotWs_no_dot (f : List Char) (hf : '.' ∉ f) : splitDotWs f = [f] := by
  unfold splitDotWs
  induction f with
  | nil => rfl
  | cons c f' ih =>
    have hc : c ≠ '.' := fun h => hf (by simp [h])
    have hf' : '.' ∉ f' := fun h => hf (by simp [h])
    show splitDotWsGo false (c :: f') = [c :: f']
    simp only [splitDotWsGo]
    rw [if_neg (by simp), if_neg hc, ih hf']

/-! ### The two formulations of the fragment split agree -/

theorem splitBoundary_of_drop_nil {s : List Char} (h : s.dropWhile notDot = []) :
    splitBoundary s = [s.takeWhile notDot] := by
  rw [splitBoundary]
  split
  · rfl
  · next d r heq =>
    rw [h] at heq
    exact absurd heq (by simp)

theorem splitBoundary_of_drop_cons {s : List Char} {d : Char} {r : List Char}
    (h : s.dropWhile notDot = d :: r) :
    splitBoundary s = s.takeWhile notDot :: splitBoundary (r.dropWhile isSpaceChar) := by
  rw [splitBoundary]
  split
  · next heq =>
    rw [h] at heq
    exact absurd heq (by simp)
  · next d' r' heq =>
    have he : d :: r = d' :: r' := h.symm.trans heq
    obtain ⟨rfl, rfl⟩ : d = d' ∧ r = r' := by
      injection he with h1 h2
      exact ⟨h1, h2⟩
    rfl

theorem dropWhile_head_false {p : Char → Bool} {l : List Char} {d : Char} {r : List Char}
    (h : l.dropWhile p = d :: r) : p d = false := by
  induction l with
  | nil => exact absurd h (by simp)
  | cons a m ih =>
    rw [List.dropWhile_cons] at h
    by_cases hp : p a = true
    · rw [if_pos hp] at h
      exact ih h
    · rw [if_neg hp] at h
      injection h with h1 _
      subst h1
      simpa using hp

theorem splitDotWs_eq_splitBoundary_aux (n : Nat) :
    ∀ s : List Char, s.length ≤ n → splitDotWs s = splitBoundary s := by
  induction n with
  | zero =>
    intro s hs
    have hs0 : s = [] := by
      cases s with
      | nil => rfl
      | cons a m => simp at hs
    subst hs0
    rw [splitBoundary_of_drop_nil (show List.dropWhile notDot [] = [] from rfl)]
    rfl
  | succ n ih =>
    intro s hs
    cases hd : s.dropWhile notDot with
    | nil =>
      have hnodot : '.' ∉ s := by
        intro hmem
        have hx := List.dropWhile_eq_nil_iff.mp hd '.' hmem
        simp [notDot] at hx
      rw [splitDotWs_no_dot s hnodot, splitBoundary_of_drop_nil hd]
      have ht : s.takeWhile notDot = s := by
        have h2 := List.takeWhile_append_dropWhile notDot s
        rw [hd, List.append_nil] at h2
        exact h2
      rw [ht]
    | cons d r =>
      have hd' : d = '.' := by
        have hx := dropWhile_head_false hd
        simpa [notDot] using hx
      subst hd'
      have hs' : s.takeWhile notDot ++ '.' :: r = s := by
        have h2 := List.takeWhile_append_dropWhile notDot s
        rw [hd] at h2
        exact h2
      have hnodot : '.' ∉ s.takeWhile notDot := by
        intro hmem
        have hx := List.mem_takeWhile_imp hmem
        simp [notDot] at hx
      have hlen : (r.dropWhile isSpaceChar).length ≤ n := by
        have e1 : (r.dropWhile isSpaceChar).length ≤ r.length :=
          (List.dropWhile_suffix _).sublist.length_le
        have e2 : (s.dropWhile notDot).length ≤ s.length :=
          (List.dropWhile_suffix _).sublist.length_le
        rw [hd] at e2
        simp only [List.length_cons] at e2
        omega
      calc splitDotWs s
          = splitDotWs (s.takeWhile notDot ++ '.' :: r) := by rw [hs']
        _ = s.takeWhile notDot :: splitDotWs (r.dropWhile isSpaceChar) :=
            splitDotWs_append _ _ hnodot
        _ = s.takeWhile notDot :: splitBoundary (r.dropWhile isSpaceChar) := by
            rw [ih _ hlen]
        _ = splitBoundary s := (splitBoundary_of_drop_cons hd).symm

/-- The regex engine's scan for `re.split(r'\.\s*', ...)` and the
boundary-by-boundary description coincide. -/
theorem splitDotWs_eq_splitBoundary (s : List Char) : splitDotWs s = splitBoundary s :=
  splitDotWs_eq_splitBoundary_aux s.length s le_rfl

/-! ## Claims C5 and C6: fragment splitting and goal selection -/

/-- Counterexample to claim C5 as stated: a period not followed by
whitespace does split — the pattern's `\s*` may be empty, so
`p(a).q(b).` yields two premises, not one. -/
theorem c5_counterexample :
    (parse_content "formulas(assumptions).\np(a).q(b).\nend_of_list.").1 = ["p(a)", "q(b)"] ∧
    (parse_content "formulas(assumptions).\np(a).q(b).\nend_of_list.").1 ≠ ["p(a).q(b)"] :=
  ⟨by decide, by decide⟩

/-- Claim C5 (amended): within the located assumptions block, the ordered
premise sequence arises by cutting at every period together with the
maximal (possibly empty) run of whitespace after it, trimming each
fragment, and discarding empty fragments and fragments that start
case-insensitively with `end`, preserving the order of the rest. -/
theorem c5_split_at_every_period (content : String) (block : List Char)
    (h : extractBlock hdrAssumptions (cleanLines content.data) = some block) :
    (parse_content content).1 =
      (((splitBoundary block).map stripList).filter keepFormula).map String.mk := by
  rw [parse_content_fst, h, ← splitDotWs_eq_splitBoundary]
  rfl

theorem c5_witness :
    extractBlock hdrAssumptions
        (cleanLines "formulas(assumptions).\na(b).\nc(d).\nend_of_list.".data) =
      some "a(b).\nc(d).".data ∧
    (parse_content "formulas(assumptions).\na(b).\nc(d).\nend_of_list.").1 =
      (((splitBoundary "a(b).\nc(d).".data).map stripList).filter keepFormula).map String.mk ∧
    (parse_content "formulas(assumptions).\na(b).\nc(d).\nend_of_list.").1 = ["a(b)", "c(d)"] :=
  ⟨by decide,
    c5_split_at_every_period "formulas(assumptions).\na(b).\nc(d).\nend_of_list."
      "a(b).\nc(d).".data (by decide),
    by decide⟩

/-- Counterexample to claim C6 as stated: the first *non-empty* formula of
the goals block is not always the conclusion — a leading formula such as
`endures(socrates)` is skipped by the `end`-prefix filter and the second
formula is returned instead. -/
theorem c6_counterexample :
    (parse_content "formulas(goals).\nendures(socrates).\nmortal(socrates).\nend_of_list.").2 =
      some "mortal(socrates)" ∧
    (parse_content "formulas(goals).\nendures(socrates).\nmortal(socrates).\nend_of_list.").2 ≠
      some "endures(socrates)" :=
  ⟨by decide, by decide⟩

/-- Claim C6 (amended): for every located goals block, the conclusion is
the head of the kept-fragment sequence — the first fragment that is
non-empty after trimming and does not start case-insensitively with
`end` — and all remaining goals in the block are discarded. -/
theorem c6_goal_selection (content : String) (block : List Char)
    (h : extractBlock hdrGoals (cleanLines content.data) = some block) :
    (parse_content content).2 =
      ((((splitBoundary block).map stripList).filter keepFormula).map String.mk).head? := by
  rw [parse_content_snd, h, ← splitDotWs_eq_splitBoundary]
  rfl

theorem c6_witness :
    extractBlock hdrGoals (cleanLines "formulas(goals).\ng1(a).\ng2(b).\nend_of_list.".data) =
      some "g1(a).\ng2(b).".data ∧
    (parse_content "formulas(goals).\ng1(a).\ng2(b).\nend_of_list.").2 =
      ((((splitBoundary "g1(a).\ng2(b).".data).map stripList).filter keepFormula).map
        String.mk).head? ∧
    (parse_content "formulas(goals).\ng1(a).\ng2(b).\nend_of_list.").2 = some "g1(a)" :=
  ⟨by decide,
    c6_goal_selection "formulas(goals).\ng1(a).\ng2(b).\nend_of_list."
      "g1(a).\ng2(b).".data (by decide),
    by decide⟩

/-! ## Claim C8: terminator handling in the synthesizer -/

theorem addDot_of_endsWith {f : String} (h : endsWithDot f = true) : addDot f = f := by
  unfold addDot
  rw [if_pos h]

theorem addDot_of_not_endsWith {f : String} (h : endsWithDot f = false) :
    addDot f = f ++ "." := by
  unfold addDot
  rw [if_neg (by simp [h])]

theorem endsWithDot_addDot (f : String) : endsWithDot (addDot f) = true := by
  cases hd : endsWithDot f
  · rw [addDot_of_not_endsWith hd]
    unfold endsWithDot
    rw [strData_append, show ("." : String).data = ['.'] from rfl, List.getLast?_concat]
    rfl
  · rw [addDot_of_endsWith hd]
    exact hd

theorem addDot_no_double (f : String) (h : endsWithDot f = false) :
    matchesAt ['.', '.'] ((addDot f).data.reverse) = false := by
  rw [addDot_of_not_endsWith h, strData_append, show ("." : String).data = ['.'] from rfl,
    show (f.data ++ ['.']).reverse = '.' :: f.data.reverse by simp]
  show (('.' == '.') && matchesAt ['.'] f.data.reverse) = false
  rw [show (('.' == '.') : Bool) = true from rfl, Bool.true_and]
  cases hr : f.data.reverse with
  | nil => rfl
  | cons c rest =>
    have hc : c ≠ '.' := by
      unfold endsWithDot at h
      rw [← List.head?_reverse, hr] at h
      simpa using h
    show (('.' == c) && true) = false
    rw [beq_eq_false_iff_ne.mpr (fun hh => hc hh.symm)]
    rfl

/-- Counterexample to claim C8 as stated: the premise `x..` already ends
with a period, so it is written unchanged and the written formula line ends
with two terminating periods. -/
theorem c8_counterexample :
    "x.." ∈ synthLines ["x.."] "g" ∧
    matchesAt ['.', '.'] ("x..".data.reverse) = true :=
  ⟨by decide, by decide⟩

/-- Claim C8 (amended): for every premise list and goal, each formula is
written as its `addDot` image, which is a line of the synthesized file;
every written formula line ends with a terminating period; the terminator
is appended precisely when the formula does not already end with one; and
a formula that did not already end with a period is written with exactly
one terminating period, never two. -/
theorem c8_terminator_appended (premises : List String) (goal : String) (f : String)
    (h : f ∈ premises ∨ f = goal) :
    (addDot f ∈ synthLines premises goal) ∧
    endsWithDot (addDot f) = true ∧
    (endsWithDot f = true → addDot f = f) ∧
    (endsWithDot f = false →
      addDot f = f ++ "." ∧ matchesAt ['.', '.'] ((addDot f).data.reverse) = false) := by
  refine ⟨?_, endsWithDot_addDot f, fun hd => addDot_of_endsWith hd,
    fun hd => ⟨addDot_of_not_endsWith hd, addDot_no_double f hd⟩⟩
  rcases h with hf | rfl
  · have h1 : addDot f ∈ premises.map addDot := List.mem_map_of_mem addDot hf
    unfold synthLines
    simp only [List.mem_append, List.mem_cons]
    tauto
  · unfold synthLines
    simp

theorem c8_witness :
    (addDot "p(a)" ∈ synthLines ["p(a)"] "g") ∧
    endsWithDot (addDot "p(a)") = true ∧
    (endsWithDot "p(a)" = true → addDot "p(a)" = "p(a)") ∧
    (endsWithDot "p(a)" = false →
      addDot "p(a)" = "p(a)" ++ "." ∧
      matchesAt ['.', '.'] ((addDot "p(a)").data.reverse) = false) :=
  c8_terminator_appended ["p(a)"] "g" "p(a)" (Or.inl (by decide))

/-- Counterexample to claim C7 as stated: the legitimate premise
`endures(socrates)` carries no trailing terminator, yet synthesize-then-
parse loses it — the parser's `end`-prefix filter discards it. -/
theorem c7_counterexample :
    parse_content (synthesize ["endures(socrates)"] "mortal(socrates)") =
      ([], some "mortal(socrates)") ∧
    parse_content (synthesize ["endures(socrates)"] "mortal(socrates)") ≠
      (["endures(socrates)"], some "mortal(socrates)") :=
  ⟨by decide, by decide⟩

/-! ## The synthesize-then-parse round trip -/

theorem good_ne {f : String} (h : GoodFormula f) : f.data ≠ [] := h.1

theorem good_no_dot {f : String} (h : GoodFormula f) : '.' ∉ f.data := h.2.2.2.1

theorem good_no_nl {f : String} (h : GoodFormula f) : '\n' ∉ f.data := h.2.2.2.2.1

theorem good_no_eol {f : String} (h : GoodFormula f) :
    hasMatchCI eolTok f.data = false := h.2.2.2.2.2.2.2.1

theorem good_no_goals {f : String} (h : GoodFormula f) :
    hasMatchCI goalsTok f.data = false := h.2.2.2.2.2.2.2.2

theorem good_lineData_no_nl {f : String} (h : GoodFormula f) : '\n' ∉ lineData f := by
  unfold lineData
  simp only [List.mem_append, List.mem_singleton]
  rintro (hx | hx)
  · exact good_no_nl h hx
  · cases hx

theorem good_no_eol_line {f : String} (h : GoodFormula f) :
    hasMatchCI eolMarker (lineData f) = false := by
  rw [show eolMarker = eolTok ++ ['.'] by decide]
  exact hasMatchCI_dotline eolTok f.data (by decide) (good_no_dot h) (good_no_eol h)

theorem good_no_goals_line {f : String} (h : GoodFormula f) :
    hasMatchCI hdrGoals (lineData f) = false := by
  rw [show hdrGoals = goalsTok ++ ['.'] by decide]
  exact hasMatchCI_dotline goalsTok f.data (by decide) (good_no_dot h) (good_no_goals h)

/-- The comment-stripping pass leaves the synthesized text's lines intact,
except that the separating blank line is dropped. -/
theorem clean_synthesized (P : List String) (g : String)
    (hP : ∀ f ∈ P, GoodFormula f) (hg : GoodFormula g) :
    cleanLines (synthesize P g).data =
      joinLines ([hdrAssumptions] ++ P.map lineData ++
        [eolMarker, hdrGoals, lineData g, eolMarker]) := by
  have hmapdata : (synthLines P g).map String.data =
      [hdrAssumptions] ++ P.map lineData ++
        [eolMarker, [], hdrGoals, lineData g, eolMarker] := by
    unfold synthLines
    simp only [List.map_append, List.map_cons, List.map_nil, List.map_map]
    rw [List.map_congr_left (fun f hf => show (String.data ∘ addDot) f = lineData f by
      simp only [Function.comp_apply]
      rw [good_addDot (hP f hf)]
      rfl)]
    rw [good_addDot hg]
    rfl
  have hdata : (synthesize P g).data =
      joinLines ([hdrAssumptions] ++ P.map lineData ++
        [eolMarker, [], hdrGoals, lineData g, eolMarker]) := by
    unfold synthesize
    rw [joinWithNewline_data, hmapdata]
  unfold cleanLines
  rw [hdata, splitNL_joinLines (by simp) ?hnl]
  case hnl =>
    intro l hl
    rcases List.mem_append.mp hl with h12 | h3
    · rcases List.mem_append.mp h12 with h1 | h2
      · rw [List.mem_singleton.mp h1]
        decide
      · obtain ⟨f, hf, rfl⟩ := List.mem_map.mp h2
        exact good_lineData_no_nl (hP f hf)
    · simp only [List.mem_cons, List.not_mem_nil, or_false] at h3
      rcases h3 with rfl | rfl | rfl | rfl | rfl
      · decide
      · simp
      · decide
      · exact good_lineData_no_nl hg
      · decide
  have hstrip : ([hdrAssumptions] ++ P.map lineData ++
      [eolMarker, [], hdrGoals, lineData g, eolMarker]).map stripList =
      [hdrAssumptions] ++ P.map lineData ++
      [eolMarker, [], hdrGoals, lineData g, eolMarker] := by
    have hpt : ∀ l ∈ [hdrAssumptions] ++ P.map lineData ++
        [eolMarker, [], hdrGoals, lineData g, eolMarker], stripList l = id l := by
      intro l hl
      simp only [id]
      rcases List.mem_append.mp hl with h12 | h3
      · rcases List.mem_append.mp h12 with h1 | h2
        · rw [List.mem_singleton.mp h1]
          decide
        · obtain ⟨f, hf, rfl⟩ := List.mem_map.mp h2
          exact lineData_strip (hP f hf)
      · simp only [List.mem_cons, List.not_mem_nil, or_false] at h3
        rcases h3 with rfl | rfl | rfl | rfl | rfl
        · decide
        · rfl
        · decide
        · exact lineData_strip hg
        · decide
    exact (List.map_congr_left hpt).trans (List.map_id _)
  rw [hstrip]
  have hfilter : ([hdrAssumptions] ++ P.map lineData ++
      [eolMarker, [], hdrGoals, lineData g, eolMarker]).filter keepLine =
      [hdrAssumptions] ++ P.map lineData ++
      [eolMarker, hdrGoals, lineData g, eolMarker] := by
    rw [List.filter_append, List.filter_append]
    have h1 : ([hdrAssumptions] : List (List Char)).filter keepLine = [hdrAssumptions] := by
      decide
    have h2 : (P.map lineData).filter keepLine = P.map lineData := by
      apply List.filter_eq_self.mpr
      intro a ha
      simp only [List.mem_map] at ha
      obtain ⟨f, hf, rfl⟩ := ha
      exact good_keepLine (hP f hf)
    have h3 : ([eolMarker, [], hdrGoals, lineData g, eolMarker] : List (List Char)).filter
        keepLine = [eolMarker, hdrGoals, lineData g, eolMarker] := by
      simp only [List.filter_cons]
      rw [show keepLine eolMarker = true by decide,
        show keepLine ([] : List Char) = false by rfl,
        show keepLine hdrGoals = true by decide,
        show keepLine (lineData g) = true from good_keepLine hg]
      simp
    rw [h1, h2, h3]
  rw [hfilter]

theorem stripList_wrap {x : List Char} {a d : Char} {m : List Char}
    (hx : x = a :: m) (ha : isSpaceChar a = false)
    (hlast : x.getLast? = some d) (hd : isSpaceChar d = false) :
    stripList ('\n' :: x ++ ['\n']) = x := by
  have hnl : isSpaceChar '\n' = true := rfl
  subst hx
  unfold stripList
  have e1 : List.dropWhile isSpaceChar ('\n' :: (a :: m) ++ ['\n']) =
      (a :: m) ++ ['\n'] := by
    rw [show ('\n' :: (a :: m) ++ ['\n']) = '\n' :: ((a :: m) ++ ['\n']) from rfl,
      List.dropWhile_cons, if_pos hnl]
    exact dropWhile_of_head_neg (show ((a :: m) ++ ['\n']).head? = some a by simp) ha
  rw [e1]
  have e2 : ((a :: m) ++ ['\n']).reverse = '\n' :: (a :: m).reverse := by simp
  rw [e2, List.dropWhile_cons, if_pos hnl]
  rw [dropWhile_of_head_neg (show ((a :: m).reverse).head? = some d by
    rw [List.head?_reverse]; exact hlast) hd]
  exact List.reverse_reverse _

theorem joinLines_lineData_head (f : String) (P : List String) (hf : GoodFormula f) :
    ∃ a m, joinLines ((f :: P).map lineData) = a :: m ∧ isSpaceChar a = false := by
  obtain ⟨a, m0, he, ha, _⟩ := good_head hf
  cases hmap : P.map lineData with
  | nil =>
    refine ⟨a, m0 ++ ['.'], ?_, ha⟩
    rw [show (f :: P).map lineData = lineData f :: P.map lineData from rfl, hmap]
    show lineData f = a :: (m0 ++ ['.'])
    unfold lineData
    rw [he]
    rfl
  | cons t ts =>
    refine ⟨a, (m0 ++ ['.']) ++ '\n' :: joinLines (t :: ts), ?_, ha⟩
    rw [show (f :: P).map lineData = lineData f :: P.map lineData from rfl, hmap,
      joinLines_cons (by simp)]
    unfold lineData
    rw [he]
    rfl

theorem joinLines_lineData_last (f : String) (P : List String) :
    (joinLines ((f :: P).map lineData)).getLast? = some '.' := by
  induction P generalizing f with
  | nil =>
    show (lineData f).getLast? = some '.'
    unfold lineData
    exact List.getLast?_concat _
  | cons b P' ih =>
    rw [show (f :: b :: P').map lineData = lineData f :: (b :: P').map lineData from rfl,
      joinLines_cons (by simp)]
    rw [show lineData f ++ '\n' :: joinLines ((b :: P').map lineData) =
        lineData f ++ ['\n'] ++ joinLines ((b :: P').map lineData) by simp]
    rw [List.getLast?_append, ih b]
    rfl

theorem flat_eq_joinLines (f : String) (P : List String) :
    ((f :: P).map (fun x => lineData x ++ ['\n'])).flatten =
      joinLines ((f :: P).map lineData) ++ ['\n'] := by
  induction P generalizing f with
  | nil =>
    show (lineData f ++ ['\n']) ++ [].flatten = joinLines [lineData f] ++ ['\n']
    simp [joinLines]
  | cons b P' ih =>
    rw [show ((f :: b :: P').map (fun x => lineData x ++ ['\n'])) =
        (lineData f ++ ['\n']) :: ((b :: P').map (fun x => lineData x ++ ['\n'])) from rfl]
    rw [List.flatten_cons, ih b]
    rw [show (f :: b :: P').map lineData = lineData f :: (b :: P').map lineData from rfl,
      joinLines_cons (by simp)]
    simp

theorem strip_prem_region (P : List String) (hP : ∀ f ∈ P, GoodFormula f) :
    stripList ('\n' :: (P.map (fun f => lineData f ++ ['\n'])).flatten) =
      joinLines (P.map lineData) := by
  cases P with
  | nil => rfl
  | cons f P' =>
    rw [flat_eq_joinLines f P']
    obtain ⟨a, m, hJ, ha⟩ := joinLines_lineData_head f P' (hP f (by simp))
    exact stripList_wrap hJ ha (joinLines_lineData_last f P') (by decide)

theorem hasMatchCI_nil_of_ne {pat : List Char} (h : pat ≠ []) :
    hasMatchCI pat [] = false := by
  cases pat with
  | nil => exact absurd rfl h
  | cons p ps => rfl

/-- Scanning for the end-of-list marker over the premise lines finds the
marker line, accumulating the premise region as the before-part. -/
theorem eol_split_lines (P : List String) (T : List (List Char)) (hT : T ≠ [])
    (hP : ∀ f ∈ P, GoodFormula f) :
    splitAtFirstCI eolMarker (joinLines (P.map lineData ++ eolMarker :: T)) =
      some ((P.map (fun f => lineData f ++ ['\n'])).flatten, '\n' :: joinLines T) := by
  induction P with
  | nil =>
    rw [show ([] : List String).map lineData ++ eolMarker :: T = eolMarker :: T by simp,
      joinLines_cons hT, splitAtFirstCI_self]
    rfl
  | cons f P' ih =>
    have hgood := hP f (by simp)
    have hP' : ∀ x ∈ P', GoodFormula x := fun x hx => hP x (by simp [hx])
    have hne : P'.map lineData ++ eolMarker :: T ≠ [] := by simp
    rw [show (f :: P').map lineData ++ eolMarker :: T =
        lineData f :: (P'.map lineData ++ eolMarker :: T) by simp,
      joinLines_cons hne]
    rw [splitAtFirstCI_append_newline eolMarker (lineData f) _ (by decide) (by decide)
      (good_no_eol_line hgood)]
    rw [ih hP']
    simp

/-- Scanning for a pattern past joined lines that do not contain it. -/
theorem skip_lines (pat : List Char) (L : List (List Char)) (y : List Char)
    (hp0 : pat ≠ []) (hpnl : '\n' ∉ pat.map lowerC) :
    (∀ l ∈ L, hasMatchCI pat l = false) →
    splitAtFirstCI pat (joinLines L ++ '\n' :: y) =
      (splitAtFirstCI pat y).map (fun p => ((joinLines L ++ ['\n']) ++ p.1, p.2)) := by
  induction L with
  | nil =>
    intro _
    rw [show joinLines ([] : List (List Char)) ++ '\n' :: y = [] ++ '\n' :: y from rfl,
      splitAtFirstCI_append_newline pat [] y hp0 hpnl (hasMatchCI_nil_of_ne hp0)]
    rfl
  | cons l L' ih =>
    intro hL
    have hml : hasMatchCI pat l = false := hL l (by simp)
    cases L' with
    | nil =>
      rw [show joinLines [l] = l from rfl,
        splitAtFirstCI_append_newline pat l y hp0 hpnl hml]
    | cons b t =>
      have hLt : ∀ x ∈ b :: t, hasMatchCI pat x = false := fun x hx => hL x (by simp [hx])
      rw [joinLines_cons (show (b :: t : List (List Char)) ≠ [] by simp)]
      rw [show (l ++ '\n' :: joinLines (b :: t)) ++ '\n' :: y =
          l ++ '\n' :: (joinLines (b :: t) ++ '\n' :: y) by simp]
      rw [splitAtFirstCI_append_newline pat l _ hp0 hpnl hml]
      rw [ih hLt]
      cases splitAtFirstCI pat y with
      | none => rfl
      | some p =>
        simp [joinLines_cons (show (b :: t : List (List Char)) ≠ [] by simp)]

theorem extractBlock_eq_of (header : List Char) {content b1 rest before b2 : List Char}
    (h1 : splitAtFirstCI header content = some (b1, rest))
    (h2 : splitAtFirstCI eolMarker rest = some (before, b2)) :
    extractBlock header content = some (stripList before) := by
  unfold extractBlock
  rw [h1]
  simp only [h2]

/-- The assumptions-block extraction on the synthesized file returns the
newline-joined premise lines. -/
theorem extract_assumptions_synthesized (P : List String) (g : String)
    (hP : ∀ f ∈ P, GoodFormula f) (hg : GoodFormula g) :
    extractBlock hdrAssumptions (cleanLines (synthesize P g).data) =
      some (joinLines (P.map lineData)) := by
  rw [clean_synthesized P g hP hg]
  have h1 : splitAtFirstCI hdrAssumptions
      (joinLines ([hdrAssumptions] ++ P.map lineData ++
        [eolMarker, hdrGoals, lineData g, eolMarker])) =
      some ([], '\n' :: joinLines (P.map lineData ++
        [eolMarker, hdrGoals, lineData g, eolMarker])) := by
    rw [show [hdrAssumptions] ++ P.map lineData ++
        [eolMarker, hdrGoals, lineData g, eolMarker] =
        hdrAssumptions :: (P.map lineData ++ [eolMarker, hdrGoals, lineData g, eolMarker])
      by simp,
      joinLines_cons (by simp)]
    exact splitAtFirstCI_self _ _
  have h2 : splitAtFirstCI eolMarker ('\n' :: joinLines (P.map lineData ++
        [eolMarker, hdrGoals, lineData g, eolMarker])) =
      some ('\n' :: (P.map (fun f => lineData f ++ ['\n'])).flatten,
        '\n' :: joinLines [hdrGoals, lineData g, eolMarker]) := by
    rw [show ('\n' :: joinLines (P.map lineData ++
        [eolMarker, hdrGoals, lineData g, eolMarker])) =
        [] ++ '\n' :: joinLines (P.map lineData ++
          eolMarker :: [hdrGoals, lineData g, eolMarker]) from rfl,
      splitAtFirstCI_append_newline eolMarker [] _ (by decide) (by decide)
        (hasMatchCI_nil_of_ne (by decide)),
      eol_split_lines P [hdrGoals, lineData g, eolMarker] (by simp) hP]
    rfl
  rw [extractBlock_eq_of hdrAssumptions h1 h2, strip_prem_region P hP]

/-- The goals-block extraction on the synthesized file returns the goal
line. -/
theorem extract_goals_synthesized (P : List String) (g : String)
    (hP : ∀ f ∈ P, GoodFormula f) (hg : GoodFormula g) :
    extractBlock hdrGoals (cleanLines (synthesize P g).data) = some (lineData g) := by
  rw [clean_synthesized P g hP hg]
  have hpre : ([hdrAssumptions] ++ P.map lineData ++
      [eolMarker, hdrGoals, lineData g, eolMarker]) =
      ([hdrAssumptions] ++ P.map lineData ++ [eolMarker]) ++
        hdrGoals :: [lineData g, eolMarker] := by simp
  have hprene : [hdrAssumptions] ++ P.map lineData ++ [eolMarker] ≠
      ([] : List (List Char)) := by simp
  have hskip : ∀ l ∈ [hdrAssumptions] ++ P.map lineData ++ [eolMarker],
      hasMatchCI hdrGoals l = false := by
    intro l hl
    rcases List.mem_append.mp hl with h12 | h3
    · rcases List.mem_append.mp h12 with hh1 | hh2
      · rw [List.mem_singleton.mp hh1]
        decide
      · obtain ⟨f, hf, rfl⟩ := List.mem_map.mp hh2
        exact good_no_goals_line (hP f hf)
    · rw [List.mem_singleton.mp h3]
      decide
  have h1 : splitAtFirstCI hdrGoals
      (joinLines ([hdrAssumptions] ++ P.map lineData ++
        [eolMarker, hdrGoals, lineData g, eolMarker])) =
      some ((joinLines ([hdrAssumptions] ++ P.map lineData ++ [eolMarker]) ++ ['\n']) ++ [],
        '\n' :: joinLines [lineData g, eolMarker]) := by
    rw [show joinLines ([hdrAssumptions] ++ P.map lineData ++
        [eolMarker, hdrGoals, lineData g, eolMarker]) =
        joinLines ([hdrAssumptions] ++ P.map lineData ++ [eolMarker]) ++
          '\n' :: (hdrGoals ++ '\n' :: joinLines [lineData g, eolMarker]) by
      rw [hpre, joinLines_append hprene (by simp), joinLines_cons (by simp)]]
    rw [skip_lines hdrGoals _ _ (by decide) (by decide) hskip, splitAtFirstCI_self]
    rfl
  have h2 : splitAtFirstCI eolMarker ('\n' :: joinLines [lineData g, eolMarker]) =
      some ('\n' :: lineData g ++ ['\n'], []) := by
    rw [show joinLines [lineData g, eolMarker] = lineData g ++ '\n' :: eolMarker from rfl]
    rw [show ('\n' :: (lineData g ++ '\n' :: eolMarker)) =
        [] ++ '\n' :: (lineData g ++ '\n' :: eolMarker) from rfl,
      splitAtFirstCI_append_newline eolMarker [] _ (by decide) (by decide)
        (hasMatchCI_nil_of_ne (by decide)),
      splitAtFirstCI_append_newline eolMarker (lineData g) _ (by decide) (by decide)
        (good_no_eol_line hg),
      show splitAtFirstCI eolMarker eolMarker = some ([], []) by
        have hs := splitAtFirstCI_self eolMarker []
        simpa using hs]
    simp
  rw [extractBlock_eq_of hdrGoals h1 h2]
  obtain ⟨a, m0, he, ha, _⟩ := good_head hg
  rw [stripList_wrap (show lineData g = a :: (m0 ++ ['.']) by
      unfold lineData; rw [he]; rfl) ha
    (show (lineData g).getLast? = some '.' from List.getLast?_concat _) (by decide)]

theorem splitDotWs_lineData (P : List String) (hP : ∀ f ∈ P, GoodFormula f) :
    splitDotWs (joinLines (P.map lineData)) = P.map String.data ++ [[]] := by
  induction P with
  | nil => rfl
  | cons f P' ih =>
    have hgood := hP f (by simp)
    have hP' : ∀ x ∈ P', GoodFormula x := fun x hx => hP x (by simp [hx])
    cases P' with
    | nil =>
      show splitDotWs (lineData f) = [f.data, []]
      unfold lineData
      rw [show f.data ++ ['.'] = f.data ++ '.' :: [] from rfl,
        splitDotWs_append _ _ (good_no_dot hgood)]
      rfl
    | cons b t =>
      rw [show (f :: b :: t).map lineData = lineData f :: (b :: t).map lineData from rfl,
        joinLines_cons (by simp)]
      rw [show lineData f ++ '\n' :: joinLines ((b :: t).map lineData) =
          f.data ++ '.' :: ('\n' :: joinLines ((b :: t).map lineData)) by
        unfold lineData; simp]
      rw [splitDotWs_append _ _ (good_no_dot hgood)]
      obtain ⟨a, m, hJ, ha⟩ := joinLines_lineData_head b t (hP b (by simp))
      rw [show List.dropWhile isSpaceChar ('\n' :: joinLines ((b :: t).map lineData)) =
          List.dropWhile isSpaceChar (joinLines ((b :: t).map lineData)) by
        rw [List.dropWhile_cons, if_pos (show isSpaceChar '\n' = true from rfl)]]
      rw [dropWhile_of_head_neg
        (show (joinLines ((b :: t).map lineData)).head? = some a by rw [hJ]; rfl) ha]
      rw [ih hP']
      rfl

theorem extractFormulas_lineData (P : List String) (hP : ∀ f ∈ P, GoodFormula f) :
    extractFormulas (joinLines (P.map lineData)) = P := by
  unfold extractFormulas
  rw [splitDotWs_lineData P hP, List.map_append, List.filter_append]
  have h1 : (P.map String.data).map stripList = P.map String.data := by
    rw [List.map_map]
    exact List.map_congr_left (fun f hf => good_strip (hP f hf))
  have h2 : ((P.map String.data).map stripList).filter keepFormula = P.map String.data := by
    rw [h1]
    apply List.filter_eq_self.mpr
    intro a ha
    obtain ⟨f, hf, rfl⟩ := List.mem_map.mp ha
    exact good_keepFormula (hP f hf)
  rw [h2, show (([[]] : List (List Char)).map stripList).filter keepFormula = [] from rfl,
    List.append_nil, List.map_map]
  exact (List.map_congr_left (fun f _ => rfl)).trans (List.map_id P)

theorem extractFormulas_single (g : String) (hg : GoodFormula g) :
    extractFormulas (lineData g) = [g] := by
  have he : joinLines ([g].map lineData) = lineData g := rfl
  rw [← he]
  exact extractFormulas_lineData [g] (by
    intro f hf
    rw [List.mem_singleton.mp hf]
    exact hg)

/-- Claim C7 (amended): for premises and goal that are non-empty,
whitespace-trim-stable, single-line, period-free, not comment-like, not
starting case-insensitively with `end`, and containing neither the
`end_of_list` nor the `formulas(goals)` token case-insensitively, parsing
the synthesized text returns exactly the same ordered premise list and the
same goal. -/
theorem c7_roundtrip (P : List String) (g : String)
    (hP : ∀ f ∈ P, GoodFormula f) (hg : GoodFormula g) :
    parse_content (synthesize P g) = (P, some g) := by
  have h1 : (parse_content (synthesize P g)).1 = P := by
    rw [parse_content_fst, extract_assumptions_synthesized P g hP hg]
    exact extractFormulas_lineData P hP
  have h2 : (parse_content (synthesize P g)).2 = some g := by
    rw [parse_content_snd, extract_goals_synthesized P g hP hg]
    simp only [extractFormulas_single g hg]
    rfl
  calc parse_content (synthesize P g)
      = ((parse_content (synthesize P g)).1, (parse_content (synthesize P g)).2) := rfl
    _ = (P, some g) := by rw [h1, h2]

theorem c7_witness :
    (∀ f ∈ ["all x (man(x) -> mortal(x))", "man(socrates)"], GoodFormula f) ∧
    GoodFormula "mortal(socrates)" ∧
    parse_content (synthesize ["all x (man(x) -> mortal(x))", "man(socrates)"]
        "mortal(socrates)") =
      (["all x (man(x) -> mortal(x))", "man(socrates)"], some "mortal(socrates)") :=
  ⟨by decide, by decide,
    c7_roundtrip ["all x (man(x) -> mortal(x))", "man(socrates)"] "mortal(socrates)"
      (by decide) (by decide)⟩

end McpLogic
